import Mathlib

/- Verification development for the vmo-pystation radio capture station.

   The embedding models:
   - station_controller.py, StationController.run_stream: the squelch-gated
     capture loop over complex sample blocks (state LoopState, per-block step
     stepBlock, loop runStreamLoop, entry points run_stream and
     run_stream_full), and
   - signal_processor.py: the FM demodulation pipeline (fm_demodulate) with
     its helpers (lfilter, unwrapNp, bandpass_voice, normailize_signal,
     float32_to_int16).

   Machine floats are modelled as exact reals, complex64 samples as ℂ.  Where
   IEEE-754 non-finite values matter (the unguarded division in
   normailize_signal) a dedicated Option ℚ value model (none = NaN/Inf) is
   used.  Filter coefficients produced by the external scipy designers
   (signal.butter, signal.firwin) enter as list parameters.  In-place numpy
   mutation of an argument array is made explicit by returning the final
   contents of that array alongside the function result. -/

namespace Vmo

/-- The configuration fields of StationController.Config that the capture
loop core reads: VFO_FS (input sample rate), SQUELCH (power threshold),
WAIT_TO_END (hangover duration in blocks), DEBUG_MODE. -/
structure Config where
  vfoFs : ℕ
  squelch : ℝ
  waitToEnd : ℕ
  debugMode : Bool

/-- The mutable locals of StationController.run_stream:
wte = `_wte` (wait-to-end hangover counter), lrsi = `_lrsi` (index at which
the last true squelch trip started recording), samplesRead = `_samples_read`,
buf = `_iq_samples` (the pre-allocated, growable capture buffer). -/
structure LoopState where
  wte : ℕ
  lrsi : ℕ
  samplesRead : ℕ
  buf : List ℂ

noncomputable section

/-- Mean absolute amplitude of a block: `numpy.abs(_readSamples).mean()`. -/
def meanAbs (block : List ℂ) : ℝ :=
  (block.map Complex.abs).sum / block.length

/-- Per-sample squelch zeroing:
`numpy.where(numpy.abs(x) > squelch, x, 0)` (used both in run_stream and in
fm_demodulate). -/
def squelchMask (squelch : ℝ) (block : List ℂ) : List ℂ :=
  block.map fun z => if Complex.abs z > squelch then z else 0

/-- Numpy slice assignment `buf[start:start+blk.length] = blk`. -/
def writeAt (buf : List ℂ) (start : ℕ) (blk : List ℂ) : List ℂ :=
  buf.take start ++ blk ++ buf.drop (start + blk.length)

/-- One buffer write of run_stream (lines 227-242): grow the buffer by the
incoming block length if the write would overflow, then copy the block in at
`_samples_read`.  State is (buffer contents, samples written so far). -/
def bufWrite (st : List ℂ × ℕ) (blk : List ℂ) : List ℂ × ℕ :=
  let endIdx := st.2 + blk.length
  let buf := if st.1.length < endIdx then st.1 ++ List.replicate blk.length 0 else st.1
  (writeAt buf st.2 blk, endIdx)

/-- Record one block: squelch-mask it, then write it into the capture buffer
at `_samples_read` (run_stream lines 220-243). -/
def record (cfg : Config) (st : LoopState) (block : List ℂ) : LoopState :=
  let w := bufWrite (st.buf, st.samplesRead) (squelchMask cfg.squelch block)
  ⟨st.wte, st.lrsi, w.2, w.1⟩

/-- One iteration body of the run_stream capture loop (lines 203-243):
squelch classification, hangover bookkeeping and recording.  The returned
Bool is `_isSquelchTripped` at the end of the iteration. -/
def stepBlock (cfg : Config) (st : LoopState) (block : List ℂ) : LoopState × Bool :=
  if meanAbs block > cfg.squelch then
    (record cfg ⟨cfg.waitToEnd, st.samplesRead, st.samplesRead, st.buf⟩ block, true)
  else if 0 < st.wte then
    (record cfg ⟨st.wte - 1, st.lrsi, st.samplesRead, st.buf⟩ block, true)
  else
    (st, false)

/-- The end-of-session test of run_stream (lines 245-247):
`_wte < 1 and not _isSquelchTripped and _samples_read > 0`. -/
def breakCond (p : LoopState × Bool) : Prop :=
  p.1.wte < 1 ∧ p.2 = false ∧ 0 < p.1.samplesRead

instance (p : LoopState × Bool) : Decidable (breakCond p) :=
  inferInstanceAs (Decidable (_ ∧ _ ∧ _))

/-- The `async for` loop of run_stream over a (finite) stream of blocks.
Returns the loop state at exit together with the blocks the loop never
consumed (nonempty exactly when the loop ended via `break`). -/
def runStreamLoop (cfg : Config) : List (List ℂ) → LoopState → LoopState × List (List ℂ)
  | [], st => (st, [])
  | b :: rest, st =>
    if breakCond (stepBlock cfg st b) then ((stepBlock cfg st b).1, rest)
    else runStreamLoop cfg rest (stepBlock cfg st b).1

/-- Initial loop state: counters zero and a pre-allocated buffer of
10 seconds of zero samples (`numpy.zeros(10 * self.cfg.VFO_FS)`). -/
def initState (cfg : Config) : LoopState :=
  ⟨0, 0, 0, List.replicate (10 * cfg.vfoFs) 0⟩

/-- The live path of run_stream: run the capture loop, then return
`_iq_samples[: _lrsi + int(self.cfg.VFO_FS / 2)]` (line 257). -/
def run_stream (cfg : Config) (blocks : List (List ℂ)) : List ℂ :=
  let st := (runStreamLoop cfg blocks (initState cfg)).1
  st.buf.take (st.lrsi + cfg.vfoFs / 2)

/-- Full run_stream including the debug-mode early return (lines 188-190):
in debug mode the pre-recorded file samples are returned as-is and the
capture loop is never entered. -/
def run_stream_full (cfg : Config) (fileSamples : List ℂ) (blocks : List (List ℂ)) : List ℂ :=
  if cfg.debugMode then fileSamples else run_stream cfg blocks

/-- Modelled from the spec: the spec asserts the debug source path is
"behaviorally identical to the live path" for the same complex sample
sequence, i.e. it should produce what the live capture loop produces. -/
def debug_path_spec (cfg : Config) (blocks : List (List ℂ)) : List ℂ :=
  run_stream cfg blocks

/-- One output sample of scipy.signal.lfilter(b, a, x), computed from the
already-produced outputs `prev` (so this is output index `prev.length`):
a0 * y[n] = sum k, b[k]*x[n-k] - sum k ≥ 1, a[k]*y[n-k]. -/
def lfilterStep {K : Type} [Field K] (b a x prev : List K) : K :=
  let n := prev.length
  ((Finset.range b.length).sum fun k =>
      b.getD k 0 * (if k ≤ n then x.getD (n - k) 0 else 0))
    - ((Finset.range a.length).sum fun k =>
      if 1 ≤ k ∧ k ≤ n then a.getD k 0 * prev.getD (n - k) 0 else 0)

/-- The first `n` outputs of scipy.signal.lfilter(b, a, x). -/
def lfilterAux {K : Type} [Field K] (b a x : List K) : ℕ → List K
  | 0 => []
  | n + 1 =>
    let prev := lfilterAux b a x n
    prev ++ [lfilterStep b a x prev / a.getD 0 0]

/-- scipy.signal.lfilter(b, a, x): a direct-form IIR filter producing one
output per input sample. -/
def lfilter {K : Type} [Field K] (b a x : List K) : List K :=
  lfilterAux b a x x.length

/-- numpy.arctan2(y, x): the four-quadrant arctangent, i.e. the argument of
the complex number x + i*y (with arctan2 0 0 = 0). -/
def arctan2 (y x : ℝ) : ℝ :=
  Complex.arg ⟨x, y⟩

/-- numpy.diff: d[i] = x[i+1] - x[i], one sample shorter than the input. -/
def diffL (l : List ℝ) : List ℝ :=
  List.zipWith (fun u v => u - v) l.tail l

/-- numpy cumsum: partial sums, c[i] = x[0] + ... + x[i]. -/
def cumsum : List ℝ → List ℝ
  | [] => []
  | x :: xs => x :: (cumsum xs).map (fun y => x + y)

/-- numpy.mod(x, 2*pi): remainder with the sign of the divisor. -/
def fmod2pi (x : ℝ) : ℝ :=
  x - 2 * Real.pi * ⌊x / (2 * Real.pi)⌋

/-- numpy.unwrap with the default discontinuity pi: correct each first
difference into (-pi, pi] and add the accumulated corrections back. -/
def unwrapNp (p : List ℝ) : List ℝ :=
  let dd := diffL p
  let ddmod := dd.map fun d =>
    let m := fmod2pi (d + Real.pi) - Real.pi
    if m = -Real.pi ∧ 0 < d then Real.pi else m
  let ph := List.zipWith (fun m d => if |d| < Real.pi then 0 else m - d) ddmod dd
  match p with
  | [] => []
  | p0 :: rest => p0 :: List.zipWith (fun u v => u + v) rest (cumsum ph)

/-- Carrier removal (fm_demodulate lines 56-57):
rx = fm_samples * exp(-1j * 2 * pi * fc * n). -/
def carrierRemove (fc : ℝ) (l : List ℂ) : List ℂ :=
  List.zipWith
    (fun z (n : ℕ) => z * Complex.exp (-Complex.I * (2 * (Real.pi : ℂ) * (fc : ℂ) * (n : ℂ))))
    l (List.range l.length)

/-- The in-place `samples += 1e-10` that plot_waterfall (line 279) performs
on the array passed to it, on complex data. -/
def plotMutC (l : List ℂ) : List ℂ :=
  l.map fun z => z + ((1 / 10 ^ 10 : ℝ) : ℂ)

/-- The in-place `samples += 1e-10` that plot_waterfall (line 279) performs
on the array passed to it, on real data. -/
def plotMutR (l : List ℝ) : List ℝ :=
  l.map fun z => z + (1 / 10 ^ 10 : ℝ)

/-- numpy.max(numpy.abs(samples)) for a nonempty array (the empty case,
which numpy rejects, is given the junk value 0). -/
def maxAbsR (l : List ℝ) : ℝ :=
  match l.map (fun x => |x|) with
  | [] => 0
  | x :: xs => xs.foldl max x

/-- SignalProcessor.normailize_signal, value level:
`samples /= numpy.max(numpy.abs(samples))` with exact real division. -/
def normailize_signal (samples : List ℝ) : List ℝ :=
  samples.map fun x => x / maxAbsR samples

/-- SignalProcessor.normailize_signal with its in-place mutation made
explicit: the first component is the returned array, the second the final
contents of the caller's argument array (the same array object). -/
def normailize_signal_mut (samples : List ℝ) : List ℝ × List ℝ :=
  (normailize_signal samples, normailize_signal samples)

/-- SignalProcessor.bandpass_voice: lfilter(bandpass_filter, 1, samples),
where bandpass_filter is the external firwin(1024, [300/nyq, 3000/nyq])
FIR design, passed here as the parameter bp. -/
def bandpass_voice (bp : List ℝ) (samples : List ℝ) : List ℝ :=
  lfilter bp [1] samples

/-- The FM discriminator portion of fm_demodulate (lines 47-63): 2-pole
lowpass (scipy.signal.butter(2, 3e3, fs) coefficients passed as b, a),
per-sample squelch zeroing, carrier removal, four-quadrant phase extraction,
unwrap, scale by 1/(2*pi*df) and discrete difference. -/
def fm_discriminate (b a : List ℝ) (squelch df fc : ℝ) (x : List ℂ) : List ℝ :=
  let fmF := lfilter (b.map (fun r => (r : ℂ))) (a.map (fun r => (r : ℂ))) x
  let fmS := squelchMask squelch fmF
  let rx := carrierRemove fc fmS
  let phi := rx.map fun z => arctan2 z.im z.re
  diffL ((unwrapNp phi).map fun u => u / (2 * Real.pi * df))

/-- SignalProcessor.fm_demodulate.  Parameters b, a are the external
scipy.signal.butter(2, 3e3, fs) lowpass coefficients and bp the external
firwin bandpass taps; fs is carried for fidelity with the source signature
(it only parameterises those external designs and the plots).  The first
component is the returned demodulated signal; the second component is the
final contents of the caller's fm_samples array, which the first
plot_waterfall call mutates in place (`samples += 1e-10`). -/
def fm_demodulate (b a bp : List ℝ) (fm0 : List ℂ) (squelch : ℝ)
    (fs df fc : ℝ) : List ℝ × List ℂ :=
  let fm1 := plotMutC fm0
  let demod1 := fm_discriminate b a squelch df fc fm1
  let demod2 := plotMutR demod1
  let demod3 := bandpass_voice bp demod2
  let demod4 := normailize_signal demod3
  let demod5 := plotMutR demod4
  (demod5, fm1)

end

/-- IEEE-754 value model for the normalization step: none stands for a
non-finite float (NaN or Inf), some q for the finite value q. -/
abbrev FVal : Type := Option ℚ

/-- numpy.abs on the float value model (abs of NaN is NaN). -/
def fvAbs : FVal → FVal
  | none => none
  | some q => some |q|

/-- Binary max on the float value model (numpy.max propagates NaN). -/
def fvMax : FVal → FVal → FVal
  | some a, some b => some (max a b)
  | _, _ => none

/-- numpy.max(numpy.abs(samples)) on the float value model (numpy raises on
an empty array; the model returns none there). -/
def fvMaxAbs (l : List FVal) : FVal :=
  match l.map fvAbs with
  | [] => none
  | x :: xs => xs.foldl fvMax x

/-- IEEE-754 division on the float value model: x / 0 is NaN (for x = 0) or
Inf (otherwise), both modelled as none; any non-finite operand gives a
non-finite result. -/
def fvDiv : FVal → FVal → FVal
  | some a, some b => if b = 0 then none else some (a / b)
  | _, _ => none

/-- SignalProcessor.normailize_signal under IEEE-754 semantics:
`samples /= numpy.max(numpy.abs(samples))` with no special case for a
zero maximum. -/
def normailize_signalIEEE (samples : List FVal) : List FVal :=
  samples.map fun x => fvDiv x (fvMaxAbs samples)

/-- numpy.clip(x, -1.0, 1.0), elementwise (float32_to_int16 line 148). -/
def clip1 (x : ℚ) : ℚ :=
  min 1 (max (-1) x)

/-- Float-to-integer conversion as performed by a C cast: truncation toward
zero (the behaviour of ndarray.astype for in-range values). -/
def truncZ (q : ℚ) : ℤ :=
  if 0 ≤ q then ⌊q⌋ else ⌈q⌉

/-- Reduction of an integer into the int16 range by wraparound, the storage
semantics of numpy.int16. -/
def toInt16 (n : ℤ) : ℤ :=
  (n + 32768) % 65536 - 32768

/-- SignalProcessor.float32_to_int16: clip to [-1, 1], scale by 32767, store
as int16 (`(float_array * 32767).astype(numpy.int16)`). -/
def float32_to_int16 (xs : List ℚ) : List ℤ :=
  xs.map fun x => toInt16 (truncZ (clip1 x * 32767))

/-- Total length of a list of blocks, in samples. -/
def sumLens (blocks : List (List ℂ)) : ℕ :=
  (blocks.map List.length).sum

/- ------------------------------------------------------------------- -/
/- Theorems. -/

theorem clip1_mem (x : ℚ) : -1 ≤ clip1 x ∧ clip1 x ≤ 1 := by
  unfold clip1
  exact ⟨le_min (by norm_num) (le_max_left _ _), min_le_left _ _⟩

theorem truncZ_mem {q : ℚ} (h1 : -32767 ≤ q) (h2 : q ≤ 32767) :
    -32767 ≤ truncZ q ∧ truncZ q ≤ 32767 := by
  unfold truncZ
  split
  case isTrue h =>
    refine ⟨le_trans (by norm_num) (Int.floor_nonneg.mpr h), ?_⟩
    have hc : (⌊q⌋ : ℚ) ≤ 32767 := le_trans (Int.floor_le q) h2
    exact_mod_cast hc
  case isFalse h =>
    push_neg at h
    refine ⟨?_, le_trans (Int.ceil_le.mpr (by exact_mod_cast h.le)) (by norm_num)⟩
    have hc : (-32767 : ℚ) ≤ (⌈q⌉ : ℚ) := le_trans h1 (Int.le_ceil q)
    exact_mod_cast hc

theorem toInt16_id {n : ℤ} (h1 : -32768 ≤ n) (h2 : n ≤ 32767) : toInt16 n = n := by
  unfold toInt16
  rw [Int.emod_eq_of_lt (by omega) (by omega)]
  omega

/-- C7: the quantizer clips each float to the interval from -1 to 1, scales
by 32767 and truncates to an integer; the int16 store never wraps, every
output lies between -32767 and 32767, and inputs at or beyond the clip
limits map to the extreme values. -/
theorem float32_to_int16_spec (xs : List ℚ) :
    float32_to_int16 xs = xs.map (fun x => truncZ (clip1 x * 32767)) ∧
    (∀ y ∈ float32_to_int16 xs, -32767 ≤ y ∧ y ≤ 32767) ∧
    (∀ x ∈ xs, 1 ≤ x → toInt16 (truncZ (clip1 x * 32767)) = 32767) ∧
    (∀ x ∈ xs, x ≤ -1 → toInt16 (truncZ (clip1 x * 32767)) = -32767) := by
  have key : ∀ x : ℚ,
      -32767 ≤ truncZ (clip1 x * 32767) ∧ truncZ (clip1 x * 32767) ≤ 32767 := by
    intro x
    obtain ⟨hl, hr⟩ := clip1_mem x
    exact truncZ_mem (by nlinarith) (by nlinarith)
  have hid : ∀ x : ℚ, toInt16 (truncZ (clip1 x * 32767)) = truncZ (clip1 x * 32767) :=
    fun x => toInt16_id (by linarith [(key x).1]) (key x).2
  refine ⟨?_, ?_, ?_, ?_⟩
  · exact List.map_congr_left fun x _ => hid x
  · intro y hy
    unfold float32_to_int16 at hy
    obtain ⟨x, -, rfl⟩ := List.mem_map.mp hy
    rw [hid x]
    exact key x
  · intro x _ hx
    have hclip : clip1 x = 1 := by
      unfold clip1
      rw [max_eq_right (by linarith), min_eq_left hx]
    rw [hclip, show ((1 : ℚ) * 32767) = (((32767 : ℤ) : ℚ)) by norm_num]
    unfold truncZ
    rw [if_pos (by norm_num), Int.floor_intCast]
    decide
  · intro x _ hx
    have hclip : clip1 x = -1 := by
      unfold clip1
      rw [max_eq_left hx, min_eq_right (by norm_num)]
    rw [hclip, show ((-1 : ℚ) * 32767) = (((-32767 : ℤ) : ℚ)) by norm_num]
    unfold truncZ
    rw [if_neg (by norm_num), Int.ceil_intCast]
    decide

/-- Witness for C7 at concrete inputs: one in-range value and the two
clipped directions. -/
theorem float32_to_int16_spec_witness :
    (-32767 ≤ toInt16 (truncZ (clip1 0 * 32767)) ∧
      toInt16 (truncZ (clip1 0 * 32767)) ≤ 32767) ∧
    toInt16 (truncZ (clip1 2 * 32767)) = 32767 ∧
    toInt16 (truncZ (clip1 (-2) * 32767)) = -32767 :=
  ⟨(float32_to_int16_spec [0]).2.1 (toInt16 (truncZ (clip1 0 * 32767)))
      (List.mem_map_of_mem _ (List.mem_singleton_self 0)),
    (float32_to_int16_spec [2]).2.2.1 2 (List.mem_singleton_self 2) (by norm_num),
    (float32_to_int16_spec [-2]).2.2.2 (-2) (List.mem_singleton_self (-2)) (by norm_num)⟩

theorem writeAt_length {buf blk : List ℂ} {start : ℕ}
    (h : start + blk.length ≤ buf.length) :
    (writeAt buf start blk).length = buf.length := by
  unfold writeAt
  simp only [List.length_append, List.length_take, List.length_drop]
  omega

theorem writeAt_take {buf blk : List ℂ} {start : ℕ} (h : start ≤ buf.length) :
    (writeAt buf start blk).take (start + blk.length) = buf.take start ++ blk := by
  unfold writeAt
  have hlen : (buf.take start ++ blk).length = start + blk.length := by
    simp only [List.length_append, List.length_take]
    omega
  rw [List.take_append_eq_append_take, hlen, Nat.sub_self, List.take_zero,
    List.append_nil, List.take_of_length_le (le_of_eq hlen)]

theorem bufWrite_spec {buf : List ℂ} {w : ℕ} (blk : List ℂ) (h : w ≤ buf.length) :
    (bufWrite (buf, w) blk).2 = w + blk.length ∧
    w + blk.length ≤ (bufWrite (buf, w) blk).1.length ∧
    (bufWrite (buf, w) blk).1.take (w + blk.length) = buf.take w ++ blk := by
  simp only [bufWrite]
  by_cases hg : buf.length < w + blk.length
  · rw [if_pos hg]
    have hle : w + blk.length ≤ (buf ++ List.replicate blk.length 0).length := by
      simp only [List.length_append, List.length_replicate]
      omega
    refine ⟨trivial, ?_, ?_⟩
    · rw [writeAt_length hle]
      exact hle
    · rw [writeAt_take (le_trans h (by simp)), List.take_append_of_le_length h]
  · rw [if_neg hg]
    push_neg at hg
    exact ⟨trivial, by rw [writeAt_length hg]; exact hg, writeAt_take h⟩

theorem foldl_bufWrite_spec (blocks : List (List ℂ)) :
    ∀ (buf : List ℂ) (w : ℕ), w ≤ buf.length →
      (blocks.foldl bufWrite (buf, w)).2 = w + sumLens blocks ∧
      w + sumLens blocks ≤ (blocks.foldl bufWrite (buf, w)).1.length ∧
      (blocks.foldl bufWrite (buf, w)).1.take (w + sumLens blocks) =
        buf.take w ++ blocks.flatten := by
  induction blocks with
  | nil =>
    intro buf w h
    simp [sumLens, h]
  | cons b bs ih =>
    intro buf w h
    obtain ⟨h2, hle, htake⟩ := bufWrite_spec b h
    obtain ⟨ih2, ihle, ihtake⟩ :=
      ih (bufWrite (buf, w) b).1 (bufWrite (buf, w) b).2 (h2 ▸ hle)
    have heta : ((bufWrite (buf, w) b).1, (bufWrite (buf, w) b).2) = bufWrite (buf, w) b := rfl
    rw [heta] at ih2 ihle ihtake
    rw [h2] at ih2 ihle ihtake
    have hfold : List.foldl bufWrite (buf, w) (b :: bs)
        = List.foldl bufWrite (bufWrite (buf, w) b) bs := rfl
    have hsumc : sumLens (b :: bs) = b.length + sumLens bs := by
      simp [sumLens]
    refine ⟨?_, ?_, ?_⟩
    · rw [hfold, ih2, hsumc]
      omega
    · rw [hfold, hsumc, ← Nat.add_assoc]
      exact ihle
    · rw [hfold, hsumc, ← Nat.add_assoc, ihtake, htake, List.flatten_cons,
        List.append_assoc]

/-- C3: writing blocks B1..Bn sequentially into the capture buffer, with the
buffer growing by the incoming block length whenever a write would overflow,
never loses previously written data: the first (sum of block lengths)
samples of the buffer afterwards are exactly B1..Bn concatenated, for every
initial capacity (hence for every growth schedule). -/
theorem capture_buffer_growth_preserves (blocks : List (List ℂ)) (cap : ℕ) :
    (blocks.foldl bufWrite (List.replicate cap 0, 0)).1.take (sumLens blocks) =
      blocks.flatten ∧
    (blocks.foldl bufWrite (List.replicate cap 0, 0)).2 = sumLens blocks := by
  obtain ⟨h2, -, htake⟩ :=
    foldl_bufWrite_spec blocks (List.replicate cap 0) 0 (by simp)
  constructor
  · simpa using htake
  · simpa using h2

theorem record_fields (cfg : Config) (st : LoopState) (block : List ℂ) :
    (record cfg st block).wte = st.wte ∧
    (record cfg st block).lrsi = st.lrsi ∧
    (record cfg st block).samplesRead = st.samplesRead + block.length := by
  refine ⟨rfl, rfl, ?_⟩
  simp [record, bufWrite, squelchMask]

theorem stepBlock_active (cfg : Config) (st : LoopState) (block : List ℂ)
    (h : meanAbs block > cfg.squelch) :
    stepBlock cfg st block
      = (record cfg ⟨cfg.waitToEnd, st.samplesRead, st.samplesRead, st.buf⟩ block, true) := by
  unfold stepBlock
  rw [if_pos h]

theorem stepBlock_hang (cfg : Config) (st : LoopState) (block : List ℂ)
    (h : ¬ meanAbs block > cfg.squelch) (hw : 0 < st.wte) :
    stepBlock cfg st block
      = (record cfg ⟨st.wte - 1, st.lrsi, st.samplesRead, st.buf⟩ block, true) := by
  unfold stepBlock
  rw [if_neg h, if_pos hw]

theorem stepBlock_idle0 (cfg : Config) (st : LoopState) (block : List ℂ)
    (h : ¬ meanAbs block > cfg.squelch) (hw : st.wte = 0) :
    stepBlock cfg st block = (st, false) := by
  unfold stepBlock
  rw [if_neg h, if_neg (by omega)]

theorem stepBlock_false_inv (cfg : Config) (st : LoopState) (block : List ℂ)
    (h : (stepBlock cfg st block).2 = false) :
    ¬ meanAbs block > cfg.squelch ∧ st.wte = 0 ∧ stepBlock cfg st block = (st, false) := by
  by_cases ha : meanAbs block > cfg.squelch
  · rw [stepBlock_active cfg st block ha] at h
    exact absurd h (by simp)
  · by_cases hw : 0 < st.wte
    · rw [stepBlock_hang cfg st block ha hw] at h
      exact absurd h (by simp)
    · exact ⟨ha, by omega, stepBlock_idle0 cfg st block ha (by omega)⟩

theorem not_breakCond_of_true {st : LoopState} : ¬ breakCond (st, true) := by
  simp [breakCond]

theorem runStreamLoop_cons_no_break (cfg : Config) (st : LoopState) (b : List ℂ)
    (rest : List (List ℂ)) (h : ¬ breakCond (stepBlock cfg st b)) :
    runStreamLoop cfg (b :: rest) st = runStreamLoop cfg rest (stepBlock cfg st b).1 := by
  rw [runStreamLoop, if_neg h]

theorem runStreamLoop_cons_break (cfg : Config) (st : LoopState) (b : List ℂ)
    (rest : List (List ℂ)) (h : breakCond (stepBlock cfg st b)) :
    runStreamLoop cfg (b :: rest) st = ((stepBlock cfg st b).1, rest) := by
  rw [runStreamLoop, if_pos h]

theorem runStreamLoop_all_idle (cfg : Config) (blocks : List (List ℂ)) :
    ∀ st : LoopState, st.wte = 0 → st.samplesRead = 0 →
      (∀ b ∈ blocks, ¬ meanAbs b > cfg.squelch) →
      runStreamLoop cfg blocks st = (st, []) := by
  induction blocks with
  | nil => intro st _ _ _; rfl
  | cons b bs ih =>
    intro st hw hs hall
    have hstep : stepBlock cfg st b = (st, false) :=
      stepBlock_idle0 cfg st b (hall b (List.mem_cons_self b bs)) hw
    have hnb : ¬ breakCond (stepBlock cfg st b) := by
      rw [hstep]
      simp [breakCond, hs]
    rw [runStreamLoop_cons_no_break cfg st b bs hnb, hstep]
    exact ih st hw hs fun x hx => hall x (List.mem_cons_of_mem b hx)

/-- C2: if no block ever exceeds the squelch threshold, the capture loop
records nothing (the hangover counter can never become positive without a
true trip), never breaks, and the finalized result is a slice of the
untouched zero pre-allocation: an effectively empty session, not an
error. -/
theorem run_stream_no_trip_empty (cfg : Config) (blocks : List (List ℂ))
    (h : ∀ b ∈ blocks, ¬ meanAbs b > cfg.squelch) :
    runStreamLoop cfg blocks (initState cfg) = (initState cfg, []) ∧
    (runStreamLoop cfg blocks (initState cfg)).1.samplesRead = 0 ∧
    run_stream cfg blocks = List.replicate (min (cfg.vfoFs / 2) (10 * cfg.vfoFs)) 0 := by
  have hrun := runStreamLoop_all_idle cfg blocks (initState cfg) rfl rfl h
  refine ⟨hrun, by rw [hrun]; rfl, ?_⟩
  unfold run_stream
  rw [hrun]
  simp [initState, List.take_replicate]

/-- Witness for C2: a single idle block with a concrete configuration. -/
theorem run_stream_no_trip_empty_witness :
    run_stream ⟨4, 1, 1, false⟩ [[0]] = List.replicate (min (4 / 2) (10 * 4)) 0 :=
  (run_stream_no_trip_empty ⟨4, 1, 1, false⟩ [[0]] (by
    intro b hb
    rw [List.mem_singleton] at hb
    subst hb
    show ¬ meanAbs [0] > (1 : ℝ)
    simp [meanAbs])).2.2

/-- C5: a block whose mean absolute amplitude exceeds the squelch threshold
leaves the gate tripped, resets the hangover counter to WAIT_TO_END, records
the block's start position as the last-true-trip index, and appends the
block to the session buffer. -/
theorem stepBlock_active_spec (cfg : Config) (st : LoopState) (block : List ℂ)
    (h : meanAbs block > cfg.squelch) :
    (stepBlock cfg st block).2 = true ∧
    (stepBlock cfg st block).1.wte = cfg.waitToEnd ∧
    (stepBlock cfg st block).1.lrsi = st.samplesRead ∧
    (stepBlock cfg st block).1.samplesRead = st.samplesRead + block.length := by
  rw [stepBlock_active cfg st block h]
  obtain ⟨h1, h2, h3⟩ :=
    record_fields cfg ⟨cfg.waitToEnd, st.samplesRead, st.samplesRead, st.buf⟩ block
  exact ⟨rfl, h1, h2, h3⟩

/-- Witness for C5: a concrete active block. -/
theorem stepBlock_active_spec_witness :
    (stepBlock ⟨4, 1, 1, false⟩ (initState ⟨4, 1, 1, false⟩) [2]).2 = true ∧
    (stepBlock ⟨4, 1, 1, false⟩ (initState ⟨4, 1, 1, false⟩) [2]).1.wte = 1 ∧
    (stepBlock ⟨4, 1, 1, false⟩ (initState ⟨4, 1, 1, false⟩) [2]).1.lrsi
      = (initState ⟨4, 1, 1, false⟩).samplesRead ∧
    (stepBlock ⟨4, 1, 1, false⟩ (initState ⟨4, 1, 1, false⟩) [2]).1.samplesRead
      = (initState ⟨4, 1, 1, false⟩).samplesRead + ([(2 : ℂ)]).length :=
  stepBlock_active_spec ⟨4, 1, 1, false⟩ (initState ⟨4, 1, 1, false⟩) [2] (by
    show meanAbs [2] > (1 : ℝ)
    simp [meanAbs, Complex.abs_two])

/-- C6: the capture loop finalizes a session early only at an idle block
(mean amplitude not above the threshold) whose pre-state has hangover zero
and at least one recorded sample; an idle block seen while the hangover
counter is positive decrements the counter, is still treated as active and
recorded, and the loop continues. -/
theorem run_stream_finalize_conditions (cfg : Config) :
    (∀ (st : LoopState) (b : List ℂ) (rest : List (List ℂ)),
      ¬ meanAbs b > cfg.squelch → 0 < st.wte →
        stepBlock cfg st b
          = (record cfg ⟨st.wte - 1, st.lrsi, st.samplesRead, st.buf⟩ b, true) ∧
        (stepBlock cfg st b).1.wte = st.wte - 1 ∧
        (stepBlock cfg st b).1.samplesRead = st.samplesRead + b.length ∧
        runStreamLoop cfg (b :: rest) st = runStreamLoop cfg rest (stepBlock cfg st b).1) ∧
    (∀ (blocks : List (List ℂ)) (st stF : LoopState) (rest : List (List ℂ)),
      runStreamLoop cfg blocks st = (stF, rest) → rest ≠ [] →
        ∃ pre b, blocks = pre ++ b :: rest ∧
          runStreamLoop cfg pre st = (stF, []) ∧
          ¬ meanAbs b > cfg.squelch ∧ stF.wte = 0 ∧ 0 < stF.samplesRead ∧
          stepBlock cfg stF b = (stF, false)) := by
  constructor
  · intro st b rest hb hw
    have hstep := stepBlock_hang cfg st b hb hw
    have hf := record_fields cfg ⟨st.wte - 1, st.lrsi, st.samplesRead, st.buf⟩ b
    refine ⟨hstep, by rw [hstep]; exact hf.1, by rw [hstep]; exact hf.2.2, ?_⟩
    exact runStreamLoop_cons_no_break cfg st b rest
      (by rw [hstep]; exact not_breakCond_of_true)
  · intro blocks
    induction blocks with
    | nil =>
      intro st stF rest heq hne
      rw [runStreamLoop] at heq
      injection heq with h1 h2
      exact absurd h2.symm hne
    | cons b bs ih =>
      intro st stF rest heq hne
      by_cases hbc : breakCond (stepBlock cfg st b)
      · rw [runStreamLoop_cons_break cfg st b bs hbc] at heq
        injection heq with h1 h2
        obtain ⟨hidle, hwz, hstep⟩ := stepBlock_false_inv cfg st b hbc.2.1
        rw [hstep] at h1
        have hsr : 0 < st.samplesRead := by
          have h3 := hbc.2.2
          rw [hstep] at h3
          exact h3
        subst h2
        rw [← h1]
        exact ⟨[], b, rfl, rfl, hidle, hwz, hsr, hstep⟩
      · rw [runStreamLoop_cons_no_break cfg st b bs hbc] at heq
        obtain ⟨pre, b', hsplit, hpre, hi1, hi2, hi3, hi4⟩ :=
          ih (stepBlock cfg st b).1 stF rest heq hne
        refine ⟨b :: pre, b', ?_, ?_, hi1, hi2, hi3, hi4⟩
        · rw [List.cons_append, hsplit]
        · rw [runStreamLoop_cons_no_break cfg st b pre hbc]
          exact hpre

theorem meanAbs_single_two : meanAbs [2] = 2 := by
  simp [meanAbs, Complex.abs_two]

theorem meanAbs_single_zero : meanAbs [0] = 0 := by
  simp [meanAbs]

theorem stepEval1 :
    stepBlock ⟨4, 1, 1, false⟩ (initState ⟨4, 1, 1, false⟩) [2]
      = (⟨1, 0, 1, (2 : ℂ) :: List.replicate 39 0⟩, true) := by
  rw [stepBlock_active _ _ _ (by
    show meanAbs [2] > (1 : ℝ)
    rw [meanAbs_single_two]; norm_num)]
  norm_num [record, bufWrite, writeAt, squelchMask, initState, Complex.abs_two,
    List.drop_replicate, LoopState.mk.injEq]

theorem stepEval2 :
    stepBlock ⟨4, 1, 1, false⟩ ⟨1, 0, 1, (2 : ℂ) :: List.replicate 39 0⟩ [0]
      = (⟨0, 0, 2, (2 : ℂ) :: 0 :: List.replicate 38 0⟩, true) := by
  rw [stepBlock_hang _ _ _ (by
      show ¬ meanAbs [0] > (1 : ℝ)
      rw [meanAbs_single_zero]; norm_num)
    (by show (0 : ℕ) < 1; norm_num)]
  norm_num [record, bufWrite, writeAt, squelchMask, List.drop_replicate,
    LoopState.mk.injEq]

theorem stepEval3 :
    stepBlock ⟨4, 1, 1, false⟩ ⟨0, 0, 2, (2 : ℂ) :: 0 :: List.replicate 38 0⟩ [0]
      = (⟨0, 0, 2, (2 : ℂ) :: 0 :: List.replicate 38 0⟩, false) :=
  stepBlock_idle0 _ _ _ (by
    show ¬ meanAbs [0] > (1 : ℝ)
    rw [meanAbs_single_zero]; norm_num) rfl

theorem runEval_burst3 :
    runStreamLoop ⟨4, 1, 1, false⟩ [[2], [0], [0]] (initState ⟨4, 1, 1, false⟩)
      = (⟨0, 0, 2, (2 : ℂ) :: 0 :: List.replicate 38 0⟩, []) := by
  rw [runStreamLoop_cons_no_break _ _ _ _ (by
    simp only [stepEval1]; exact not_breakCond_of_true)]
  simp only [stepEval1]
  rw [runStreamLoop_cons_no_break _ _ _ _ (by
    simp only [stepEval2]; exact not_breakCond_of_true)]
  simp only [stepEval2]
  rw [runStreamLoop_cons_break _ _ _ _ (by
    simp only [stepEval3]; simp [breakCond])]
  simp only [stepEval3]

theorem runEval_burst4 :
    runStreamLoop ⟨4, 1, 1, false⟩ [[2], [0], [0], [0]] (initState ⟨4, 1, 1, false⟩)
      = (⟨0, 0, 2, (2 : ℂ) :: 0 :: List.replicate 38 0⟩, [[0]]) := by
  rw [runStreamLoop_cons_no_break _ _ _ _ (by
    simp only [stepEval1]; exact not_breakCond_of_true)]
  simp only [stepEval1]
  rw [runStreamLoop_cons_no_break _ _ _ _ (by
    simp only [stepEval2]; exact not_breakCond_of_true)]
  simp only [stepEval2]
  rw [runStreamLoop_cons_break _ _ _ _ (by
    simp only [stepEval3]; simp [breakCond])]
  simp only [stepEval3]

/-- Witness for C6: a concrete hangover-bridged idle block, and a concrete
run whose early finalization happens exactly at the first idle block with
exhausted hangover after recorded samples. -/
theorem run_stream_finalize_conditions_witness :
    (stepBlock ⟨4, 1, 1, false⟩ ⟨1, 0, 1, (2 : ℂ) :: List.replicate 39 0⟩ [0]
        = (record ⟨4, 1, 1, false⟩ ⟨0, 0, 1, (2 : ℂ) :: List.replicate 39 0⟩ [0], true) ∧
      (stepBlock ⟨4, 1, 1, false⟩ ⟨1, 0, 1, (2 : ℂ) :: List.replicate 39 0⟩ [0]).1.wte = 0 ∧
      (stepBlock ⟨4, 1, 1, false⟩ ⟨1, 0, 1,
          (2 : ℂ) :: List.replicate 39 0⟩ [0]).1.samplesRead = 1 + ([(0 : ℂ)]).length ∧
      runStreamLoop ⟨4, 1, 1, false⟩ [[0], [0]] ⟨1, 0, 1, (2 : ℂ) :: List.replicate 39 0⟩
        = runStreamLoop ⟨4, 1, 1, false⟩ [[0]]
            (stepBlock ⟨4, 1, 1, false⟩ ⟨1, 0, 1, (2 : ℂ) :: List.replicate 39 0⟩ [0]).1) ∧
    (∃ pre b, [[(2 : ℂ)], [0], [0], [0]] = pre ++ b :: [[(0 : ℂ)]] ∧
      runStreamLoop ⟨4, 1, 1, false⟩ pre (initState ⟨4, 1, 1, false⟩)
        = (⟨0, 0, 2, (2 : ℂ) :: 0 :: List.replicate 38 0⟩, []) ∧
      ¬ meanAbs b > (1 : ℝ) ∧
      (⟨0, 0, 2, (2 : ℂ) :: 0 :: List.replicate 38 0⟩ : LoopState).wte = 0 ∧
      0 < (⟨0, 0, 2, (2 : ℂ) :: 0 :: List.replicate 38 0⟩ : LoopState).samplesRead ∧
      stepBlock ⟨4, 1, 1, false⟩ ⟨0, 0, 2, (2 : ℂ) :: 0 :: List.replicate 38 0⟩ b
        = (⟨0, 0, 2, (2 : ℂ) :: 0 :: List.replicate 38 0⟩, false)) :=
  ⟨(run_stream_finalize_conditions ⟨4, 1, 1, false⟩).1
      ⟨1, 0, 1, (2 : ℂ) :: List.replicate 39 0⟩ [0] [[0]]
      (by show ¬ meanAbs [0] > (1 : ℝ); rw [meanAbs_single_zero]; norm_num)
      (by show (0 : ℕ) < 1; norm_num),
    (run_stream_finalize_conditions ⟨4, 1, 1, false⟩).2
      [[2], [0], [0], [0]] (initState ⟨4, 1, 1, false⟩)
      ⟨0, 0, 2, (2 : ℂ) :: 0 :: List.replicate 38 0⟩ [[0]]
      runEval_burst4 (by simp)⟩

theorem sumLens_pos {act : List (List ℂ)} (hne : act ≠ [])
    (hblk : ∀ b ∈ act, b ≠ []) : 0 < sumLens act := by
  cases act with
  | nil => exact absurd rfl hne
  | cons a t =>
    have ha : 0 < a.length :=
      List.length_pos.mpr (hblk a (List.mem_cons_self a t))
    have : sumLens (a :: t) = a.length + sumLens t := by simp [sumLens]
    omega

theorem runStreamLoop_active_run (cfg : Config) :
    ∀ act : List (List ℂ), act ≠ [] →
      (∀ b ∈ act, meanAbs b > cfg.squelch) →
      ∀ (rest : List (List ℂ)) (st : LoopState),
      ∃ stA : LoopState,
        runStreamLoop cfg (act ++ rest) st = runStreamLoop cfg rest stA ∧
        stA.wte = cfg.waitToEnd ∧
        stA.lrsi = st.samplesRead + sumLens act.dropLast ∧
        stA.samplesRead = st.samplesRead + sumLens act := by
  intro act
  induction act with
  | nil => intro h; exact absurd rfl h
  | cons a t ih =>
    intro _ hall rest st
    have ha : meanAbs a > cfg.squelch := hall a (List.mem_cons_self a t)
    have hstep := stepBlock_active cfg st a ha
    have hnb : ¬ breakCond (stepBlock cfg st a) := by
      rw [hstep]; exact not_breakCond_of_true
    have hfields := record_fields cfg
      ⟨cfg.waitToEnd, st.samplesRead, st.samplesRead, st.buf⟩ a
    have h1w : (stepBlock cfg st a).1.wte = cfg.waitToEnd := by
      rw [hstep]; exact hfields.1
    have h1l : (stepBlock cfg st a).1.lrsi = st.samplesRead := by
      rw [hstep]; exact hfields.2.1
    have h1s : (stepBlock cfg st a).1.samplesRead = st.samplesRead + a.length := by
      rw [hstep]; exact hfields.2.2
    cases t with
    | nil =>
      refine ⟨(stepBlock cfg st a).1, ?_, h1w, ?_, ?_⟩
      · rw [List.cons_append, runStreamLoop_cons_no_break cfg st a ([] ++ rest) hnb]
        rfl
      · rw [h1l]
        simp [sumLens]
      · rw [h1s]
        simp [sumLens]
    | cons a' t' =>
      obtain ⟨stA, heq, hw, hl, hs⟩ :=
        ih (by simp) (fun b hb => hall b (List.mem_cons_of_mem a hb)) rest
          (stepBlock cfg st a).1
      refine ⟨stA, ?_, hw, ?_, ?_⟩
      · rw [List.cons_append, runStreamLoop_cons_no_break cfg st a ((a' :: t') ++ rest) hnb,
          heq]
      · have hdrop : sumLens ((a :: a' :: t').dropLast)
            = a.length + sumLens ((a' :: t').dropLast) := by
          rw [show (a :: a' :: t').dropLast = a :: (a' :: t').dropLast from rfl]
          simp [sumLens]
        rw [hl, h1s, hdrop]
        omega
      · have hsum : sumLens (a :: a' :: t') = a.length + sumLens (a' :: t') := by
          simp [sumLens]
        rw [hs, h1s, hsum]
        omega

theorem runStreamLoop_idle_run (cfg : Config) :
    ∀ (idles : List (List ℂ)) (st : LoopState),
      (∀ b ∈ idles, ¬ meanAbs b > cfg.squelch) →
      0 < st.samplesRead →
      st.wte + 1 ≤ idles.length →
      ∃ stF : LoopState,
        runStreamLoop cfg idles st = (stF, idles.drop (st.wte + 1)) ∧
        stF.lrsi = st.lrsi ∧ stF.wte = 0 := by
  intro idles
  induction idles with
  | nil =>
    intro st _ _ hlen
    exact absurd hlen (by simp)
  | cons i t ih =>
    intro st hall hsr hlen
    have hi : ¬ meanAbs i > cfg.squelch := hall i (List.mem_cons_self i t)
    rcases Nat.eq_zero_or_pos st.wte with hz | hp
    · have hstep := stepBlock_idle0 cfg st i hi hz
      have hbc : breakCond (stepBlock cfg st i) := by
        rw [hstep]
        exact ⟨by show st.wte < 1; omega, rfl, hsr⟩
      refine ⟨st, ?_, rfl, hz⟩
      rw [runStreamLoop_cons_break cfg st i t hbc, hstep, hz]
      rfl
    · have hstep := stepBlock_hang cfg st i hi hp
      have hnb : ¬ breakCond (stepBlock cfg st i) := by
        rw [hstep]; exact not_breakCond_of_true
      have hfields := record_fields cfg ⟨st.wte - 1, st.lrsi, st.samplesRead, st.buf⟩ i
      have h1w : (stepBlock cfg st i).1.wte = st.wte - 1 := by
        rw [hstep]; exact hfields.1
      have h1l : (stepBlock cfg st i).1.lrsi = st.lrsi := by
        rw [hstep]; exact hfields.2.1
      have h1s : (stepBlock cfg st i).1.samplesRead = st.samplesRead + i.length := by
        rw [hstep]; exact hfields.2.2
      obtain ⟨stF, heq, hlF, hwF⟩ := ih (stepBlock cfg st i).1
        (fun b hb => hall b (List.mem_cons_of_mem i hb))
        (by omega)
        (by rw [h1w]; simp at hlen; omega)
      refine ⟨stF, ?_, by rw [hlF, h1l], hwF⟩
      rw [runStreamLoop_cons_no_break cfg st i t hnb, heq, h1w,
        show st.wte + 1 = (st.wte - 1 + 1) + 1 by omega, List.drop_succ_cons]

/-- C4 (amended): run_stream truncates the finalized session to
_lrsi + VFO_FS/2 samples, where _lrsi is the index at which the LAST truly
active block STARTED (the code stores _samples_read into _lrsi before the
block is written); hence for a single contiguous run of active blocks
followed by enough idle blocks the finalized length is the total length of
the active blocks excluding the last one, plus the half-second guard,
bounded by the buffer length. -/
theorem run_stream_single_burst (cfg : Config) (act idles : List (List ℂ))
    (hne : act ≠ []) (hblk : ∀ b ∈ act, b ≠ [])
    (hact : ∀ b ∈ act, meanAbs b > cfg.squelch)
    (hidle : ∀ b ∈ idles, ¬ meanAbs b > cfg.squelch)
    (hlen : cfg.waitToEnd + 1 ≤ idles.length) :
    (runStreamLoop cfg (act ++ idles) (initState cfg)).1.lrsi
      = sumLens act.dropLast ∧
    (runStreamLoop cfg (act ++ idles) (initState cfg)).2
      = idles.drop (cfg.waitToEnd + 1) ∧
    run_stream cfg (act ++ idles)
      = (runStreamLoop cfg (act ++ idles) (initState cfg)).1.buf.take
          (sumLens act.dropLast + cfg.vfoFs / 2) ∧
    (run_stream cfg (act ++ idles)).length
      = min (sumLens act.dropLast + cfg.vfoFs / 2)
          (runStreamLoop cfg (act ++ idles) (initState cfg)).1.buf.length := by
  obtain ⟨stA, heqA, hwA, hlA, hsA⟩ :=
    runStreamLoop_active_run cfg act hne hact idles (initState cfg)
  have hsrA : 0 < stA.samplesRead := by
    rw [hsA]
    have hs := sumLens_pos hne hblk
    omega
  obtain ⟨stF, heqF, hlF, hwF⟩ :=
    runStreamLoop_idle_run cfg idles stA hidle hsrA (by rw [hwA]; exact hlen)
  have hmain : runStreamLoop cfg (act ++ idles) (initState cfg)
      = (stF, idles.drop (cfg.waitToEnd + 1)) := by
    rw [heqA, heqF, hwA]
  have hlrsi : stF.lrsi = sumLens act.dropLast := by
    rw [hlF, hlA]
    simp [initState]
  refine ⟨by rw [hmain]; exact hlrsi, by rw [hmain], ?_, ?_⟩
  · simp only [run_stream, hmain]
    rw [hlrsi]
  · simp only [run_stream, hmain]
    rw [hlrsi, List.length_take]

/-- C4 counterexample: with input rate 4 (guard 4/2 = 2 samples), squelch 1,
hangover 1, one active block [2] followed by idle blocks [0], [0], the
finalized session is [2, 0] of length 2 = 0 + guard (the last active block
STARTS at index 0), whereas the claimed value is the sum of active block
lengths plus the guard, 1 + 2 = 3, and the 40-sample buffer is large enough
that no trailing-samples bound explains the difference. -/
theorem run_stream_burst_length_counterexample :
    run_stream ⟨4, 1, 1, false⟩ [[2], [0], [0]] = [2, 0] ∧
    (run_stream ⟨4, 1, 1, false⟩ [[2], [0], [0]]).length = 2 ∧
    sumLens [[(2 : ℂ)]] + 4 / 2 = 3 ∧
    (runStreamLoop ⟨4, 1, 1, false⟩ [[2], [0], [0]]
      (initState ⟨4, 1, 1, false⟩)).1.buf.length = 40 ∧
    (2 : ℕ) ≠ min 3 40 := by
  have hout : run_stream ⟨4, 1, 1, false⟩ [[2], [0], [0]] = [2, 0] := by
    simp only [run_stream, runEval_burst3]
    norm_num
  refine ⟨hout, by rw [hout]; rfl, by simp [sumLens], ?_, by norm_num⟩
  simp only [runEval_burst3]
  simp

/-- Witness for C4 (amended) at a concrete single-burst input. -/
theorem run_stream_single_burst_witness :
    (runStreamLoop ⟨4, 1, 1, false⟩ ([[2]] ++ [[0], [0]])
        (initState ⟨4, 1, 1, false⟩)).1.lrsi = sumLens ([[(2 : ℂ)]].dropLast) :=
  (run_stream_single_burst ⟨4, 1, 1, false⟩ [[2]] [[0], [0]]
    (by simp)
    (by
      intro b hb
      rw [List.mem_singleton] at hb
      subst hb
      simp)
    (by
      intro b hb
      rw [List.mem_singleton] at hb
      subst hb
      show meanAbs [2] > (1 : ℝ)
      rw [meanAbs_single_two]; norm_num)
    (by
      intro b hb
      have hb0 : b = [0] := by simpa using hb
      subst hb0
      show ¬ meanAbs [0] > (1 : ℝ)
      rw [meanAbs_single_zero]; norm_num)
    (by show (1 : ℕ) + 1 ≤ 2; norm_num)).1

theorem stepEval1D :
    stepBlock ⟨4, 1, 1, true⟩ (initState ⟨4, 1, 1, true⟩) [2]
      = (⟨1, 0, 1, (2 : ℂ) :: List.replicate 39 0⟩, true) := by
  rw [stepBlock_active _ _ _ (by
    show meanAbs [2] > (1 : ℝ)
    rw [meanAbs_single_two]; norm_num)]
  norm_num [record, bufWrite, writeAt, squelchMask, initState, Complex.abs_two,
    List.drop_replicate, LoopState.mk.injEq]

theorem runEval_single :
    runStreamLoop ⟨4, 1, 1, true⟩ [[2]] (initState ⟨4, 1, 1, true⟩)
      = (⟨1, 0, 1, (2 : ℂ) :: List.replicate 39 0⟩, []) := by
  rw [runStreamLoop_cons_no_break _ _ _ _ (by
    simp only [stepEval1D]; exact not_breakCond_of_true)]
  simp only [stepEval1D]
  rfl

theorem run_stream_live_single :
    run_stream ⟨4, 1, 1, true⟩ [[2]] = [2, 0] := by
  simp only [run_stream, runEval_single]
  norm_num

/-- C9 counterexample: for the same complex sample sequence (a single block
[2]), the debug path returns the raw file samples [2] unchanged, while the
live capture loop produces the gated, truncated session [2, 0]; the two
paths are not behaviorally identical. -/
theorem debug_path_differs :
    run_stream_full ⟨4, 1, 1, true⟩ [2] [[2]] = [2] ∧
    debug_path_spec ⟨4, 1, 1, true⟩ [[2]] = [2, 0] ∧
    ([2] : List ℂ) ≠ [2, 0] :=
  ⟨rfl, run_stream_live_single, by simp⟩

/-- C9 (amended): in debug mode run_stream returns the pre-recorded file
samples unchanged: the capture loop with its squelch gating, recording and
truncation is bypassed entirely, so the debug path agrees with the live
path only on inputs where that processing is the identity. -/
theorem run_stream_debug_bypasses (cfg : Config) (fileSamples : List ℂ)
    (blocks : List (List ℂ)) (h : cfg.debugMode = true) :
    run_stream_full cfg fileSamples blocks = fileSamples := by
  unfold run_stream_full
  rw [if_pos h]

/-- Witness for C9 (amended) at a concrete debug configuration. -/
theorem run_stream_debug_bypasses_witness :
    run_stream_full ⟨4, 1, 1, true⟩ [2] [[2]] = [2] :=
  run_stream_debug_bypasses ⟨4, 1, 1, true⟩ [2] [[2]] rfl

theorem lfilterAux_length {K : Type} [Field K] (b a x : List K) (n : ℕ) :
    (lfilterAux b a x n).length = n := by
  induction n with
  | zero => rfl
  | succ n ih => simp [lfilterAux, ih]

theorem lfilter_length {K : Type} [Field K] (b a x : List K) :
    (lfilter b a x).length = x.length :=
  lfilterAux_length b a x x.length

theorem diffL_length (l : List ℝ) : (diffL l).length = l.length - 1 := by
  simp [diffL]

theorem cumsum_length (l : List ℝ) : (cumsum l).length = l.length := by
  induction l with
  | nil => rfl
  | cons x xs ih => simp [cumsum, ih]

theorem unwrapNp_length (p : List ℝ) : (unwrapNp p).length = p.length := by
  cases p with
  | nil => rfl
  | cons p0 rest =>
    simp [unwrapNp, cumsum_length, diffL_length, List.length_zipWith]

theorem carrierRemove_length (fc : ℝ) (l : List ℂ) :
    (carrierRemove fc l).length = l.length := by
  rw [carrierRemove, List.length_zipWith, List.length_range, min_self]

theorem fm_discriminate_length (b a : List ℝ) (squelch df fc : ℝ) (x : List ℂ) :
    (fm_discriminate b a squelch df fc x).length = x.length - 1 := by
  simp [fm_discriminate, diffL_length, unwrapNp_length, carrierRemove_length,
    squelchMask, lfilter_length]

/-- C8: fm_demodulate applies, in order, the 2-pole lowpass (the external
butter(2, 3e3, fs) coefficients b, a), per-sample zeroing of samples whose
magnitude is at or below the squelch threshold, carrier removal by a complex
exponential at fc, four-quadrant arctangent phase extraction, phase
unwrapping, and discrete differencing of the phase scaled by 1/(2 pi df) —
operating on the input as already mutated by the first plot call — followed
by the voice bandpass and normalization; the discriminator output, and with
it the returned signal, is one sample shorter than the input. -/
theorem fm_demodulate_stages (b a bp : List ℝ) (x : List ℂ)
    (squelch fs df fc : ℝ) :
    (fm_demodulate b a bp x squelch fs df fc).1
      = plotMutR (normailize_signal (bandpass_voice bp (plotMutR
          (diffL ((unwrapNp ((carrierRemove fc (squelchMask squelch
            (lfilter (b.map fun r => (r : ℂ)) (a.map fun r => (r : ℂ))
              (plotMutC x)))).map fun z => arctan2 z.im z.re)).map
                fun u => u / (2 * Real.pi * df)))))) ∧
    (fm_discriminate b a squelch df fc (plotMutC x)).length = x.length - 1 ∧
    (fm_demodulate b a bp x squelch fs df fc).1.length = x.length - 1 := by
  refine ⟨rfl, ?_, ?_⟩
  · rw [fm_discriminate_length]
    simp [plotMutC]
  · show (plotMutR (normailize_signal (bandpass_voice bp (plotMutR
      (fm_discriminate b a squelch df fc (plotMutC x)))))).length = x.length - 1
    simp [plotMutR, normailize_signal, bandpass_voice, lfilter_length,
      fm_discriminate_length, plotMutC]

/-- C10: fm_demodulate is not pure in its argument: the first plot_waterfall
call adds 1e-10 in place to the caller's input array, so after the call the
caller's array holds every element increased by 1e-10 and (for a nonempty
input) differs from the original; and normailize_signal's in-place division
leaves its caller's argument array holding the normalized values rather than
the original ones. -/
theorem fm_demodulate_mutates_input (b a bp : List ℝ) (x : List ℂ)
    (squelch fs df fc : ℝ) :
    (fm_demodulate b a bp x squelch fs df fc).2
      = x.map (fun z => z + ((1 / 10 ^ 10 : ℝ) : ℂ)) ∧
    (x ≠ [] → (fm_demodulate b a bp x squelch fs df fc).2 ≠ x) ∧
    (∀ s : List ℝ,
      normailize_signal_mut s = (normailize_signal s, normailize_signal s)) ∧
    (normailize_signal_mut [2]).2 ≠ [2] := by
  refine ⟨rfl, ?_, fun s => rfl, ?_⟩
  · intro hne heq
    cases x with
    | nil => exact hne rfl
    | cons z t =>
      have heq2 : plotMutC (z :: t) = z :: t := heq
      rw [plotMutC, List.map_cons, List.cons.injEq] at heq2
      have hz : ((1 / 10 ^ 10 : ℝ) : ℂ) = 0 := add_right_eq_self.mp heq2.1
      rw [Complex.ofReal_eq_zero] at hz
      norm_num at hz
  · have hmax : maxAbsR [2] = 2 := by
      simp [maxAbsR]
    simp [normailize_signal_mut, normailize_signal, hmax]

/-- Witness for C10: a concrete nonempty input whose caller-visible array is
changed by the call. -/
theorem fm_demodulate_mutates_input_witness :
    (fm_demodulate [1] [1] [1] [0] (1 / 2) 4 1 0).2 ≠ [0] :=
  (fm_demodulate_mutates_input [1] [1] [1] [0] (1 / 2) 4 1 0).2.1 (by simp)

/-- C1, failing input: the code contains no special case for a zero-energy
signal.  Normalizing the all-zero signal divides zero by zero, which under
the IEEE-754 semantics of numpy produces NaN in every position, not the
zero signal the claim requires. -/
theorem normailize_zero_signal_is_nan :
    normailize_signalIEEE (List.replicate 4 (some (0 : ℚ))) = List.replicate 4 none ∧
    List.replicate 4 (none : FVal) ≠ List.replicate 4 (some (0 : ℚ)) := by
  exact ⟨by decide, by decide⟩

end Vmo
